import Mathlib

/-!
Shallow embedding of the id-generation scripts of the repository
(`generate_ids.py` and its earlier variant `generate_enums.py`).

Strings are modelled as `List Char`; Python dicts (which preserve insertion
order) as association lists; fallible Python code (`exit`, `IndexError`,
`KeyError`) as `Except PyError`.
-/

namespace StableIdGen

/-- A Python string is modelled as a list of characters. -/
abbrev Str := List Char

/-- Model of Python's `str.isdigit` restricted to single ASCII characters,
as used on the first character of a key (`key[0].isdigit()`). -/
def isDigitChar (c : Char) : Bool := decide (48 ≤ c.toNat ∧ c.toNat ≤ 57)

/-- Model of Python's `str.upper` on a single ASCII character
(`key[0].upper()`). -/
def upChar (c : Char) : Char :=
  if 97 ≤ c.toNat ∧ c.toNat ≤ 122 then Char.ofNat (c.toNat - 32) else c

/-- Model of the chained `key.replace(x, "")` calls: removing every
occurrence of each separator character is filtering them out. -/
def strip (seps : List Char) (s : Str) : Str :=
  s.filter (fun c => decide (c ∉ seps))

/-- Separators removed in `generate_ids.py`:
`key.replace(" ", "").replace("_", "").replace("@", "")`. -/
def sepsIds : List Char := [' ', '_', '@']

/-- Separators removed in `generate_enums.py`:
`key.replace(" ", "").replace("_", "")`. -/
def sepsEnums : List Char := [' ', '_']

/-- The decimal digit character of `d` (for `d < 10`). -/
def digitChar (d : Nat) : Char := Char.ofNat (48 + d)

/-- Fuelled decimal rendering of a natural number (the digits of
Python's `f"{index}"`). -/
def natCharsAux : Nat → Nat → List Char
  | 0, _ => []
  | fuel + 1, n =>
    if n < 10 then [digitChar n]
    else natCharsAux fuel (n / 10) ++ [digitChar (n % 10)]

/-- Decimal rendering of a natural number, as appended by
`f"{key_to_insert}{index}"`. -/
def natChars (n : Nat) : List Char := natCharsAux (n + 1) n

/-- A symbol table: insertion-ordered mapping from symbols to numeric ids,
modelling a Python dict. -/
abbrev Table := List (Str × Nat)

/-- The keys of a table, in insertion order (Python dict key order). -/
def keys (t : Table) : List Str := t.map Prod.fst

/-- Dictionary lookup `t[k]`. -/
def lookup : Table → Str → Option Nat
  | [], _ => none
  | (k', v) :: t, k => if k' = k then some v else lookup t k

/-- Dictionary assignment `t[k] = v`: an existing key keeps its position and
gets the new value; a new key is appended at the end. -/
def setKey : Table → Str → Nat → Table
  | [], k, v => [(k, v)]
  | (k', v') :: t, k, v =>
    if k' = k then (k', v) :: t else (k', v') :: setKey t k v

/-- The `while tmp in units` loop of `parse_simple`: starting at suffix
index `i`, return the first `k ++ natChars j` (`j ≥ i`) that is not yet a
key of `t`; the fuel bounds the number of iterations. -/
def suffixFrom (t : Table) (k : Str) : Nat → Nat → Str
  | 0, i => k ++ natChars i
  | fuel + 1, i =>
    if k ++ natChars i ∈ keys t then suffixFrom t k fuel (i + 1)
    else k ++ natChars i

/-- Collision resolution of `parse_simple`: `index = 2; tmp = f"{key}{index}";
while tmp in units: index += 1; ...`. The fuel `t.length + 1` always
suffices, since a table with `t.length` keys cannot contain `t.length + 1`
distinct candidate strings. -/
def findSuffix (t : Table) (k : Str) : Str := suffixFrom t k (t.length + 1) 2

/-- The digit guard: `if key[0].isdigit(): key = "_" + key`. -/
def guardKey : Str → Str
  | [] => []
  | c :: cs => if isDigitChar c then '_' :: c :: cs else c :: cs

/-- Initial capitalization: `key = key[0].upper() + key[1:]` (total on the
empty list, which the scripts never reach at this point). -/
def capList : Str → Str
  | [] => []
  | c :: cs => upChar c :: cs

/-- The full name normalization used on a raw label: separator removal,
digit guard, initial capitalization. -/
def normalize (seps : List Char) (s : Str) : Str := capList (guardKey (strip seps s))

/-- A raw entry of a simple category (units/upgrades/buffs/effects):
a `name` field and an `id` field. -/
structure SimpleEntry where
  name : Str
  id : Nat
  deriving DecidableEq

/-- A raw ability entry: `buttonname`, optional `remapid`, optional
`friendlyname`, optional `name`, and the `index` and `id` fields. -/
structure AbilityEntry where
  buttonname : Str
  remapid : Option Int
  friendlyname : Option Str
  name : Option Str
  index : Nat
  id : Nat
  deriving DecidableEq

/-- The ways a run of the script can die: an out-of-range string index,
a missing dict key, or the `exit(f"Not mapped: {v!r}")` call (which carries
the offending raw entry). -/
inductive PyError where
  | indexError
  | keyError
  | exitNotMapped (e : AbilityEntry)
  deriving DecidableEq

/-- One iteration of the `parse_simple` loop body. -/
def parseSimpleStep (seps : List Char) (t : Table) (e : SimpleEntry) :
    Except PyError Table :=
  if e.name = [] then .ok t
  else if strip seps e.name = [] then .error .indexError
  else
    let g := guardKey (strip seps e.name)
    let k := if g ∈ keys t then findSuffix t g else g
    .ok (setKey t (capList k) e.id)

/-- The `parse_simple` loop over the remaining entries, threading the
table accumulator. -/
def parseSimpleList (seps : List Char) : Table → List SimpleEntry → Except PyError Table
  | t, [] => .ok t
  | t, e :: es =>
    match parseSimpleStep seps t e with
    | .error err => .error err
    | .ok t' => parseSimpleList seps t' es

/-- `parse_simple(d, data)`: fold the loop body over the category's raw
entries, starting from the empty dict. -/
def parseSimple (seps : List Char) (es : List SimpleEntry) : Except PyError Table :=
  parseSimpleList seps [] es

/-- The literal `"ResearchResearch"`. -/
def researchResearch : Str := String.toList "ResearchResearch"

/-- The literal `"Research"`. -/
def research : Str := String.toList "Research"

/-- Fuelled model of Python's `str.replace(pat, rep)`: scan left to right,
replace non-overlapping occurrences, never rescanning the replacement.
The fuel bounds the recursion; `s.length` is always enough for a non-empty
pattern. -/
def replaceStrAux (pat rep : List Char) : Nat → List Char → List Char
  | _, [] => []
  | 0, s => s
  | fuel + 1, c :: cs =>
    if pat.isPrefixOf (c :: cs) then rep ++ replaceStrAux pat rep fuel ((c :: cs).drop pat.length)
    else c :: replaceStrAux pat rep fuel cs

/-- Python's `s.replace(pat, rep)`. -/
def replaceStr (pat rep s : List Char) : List Char := replaceStrAux pat rep s.length s

/-- The key computation of the ability loop body in `parse_data`:
returns `ok none` when the entry is skipped (`continue`), `ok (some key)`
when a symbol is computed, and an error when the run dies. -/
def abilityKeyRaw (seps : List Char) (e : AbilityEntry) : Except PyError (Option Str) :=
  if e.buttonname = [] ∧ e.remapid = none then .ok none
  else
    match (if e.buttonname = [] then
            match e.friendlyname with
            | none => Except.error PyError.keyError
            | some f => if f = [] then .error (.exitNotMapped e) else .ok f
          else .ok e.buttonname : Except PyError Str) with
    | .error err => .error err
    | .ok key0 =>
      let key1 := strip seps key0
      let key2 :=
        match e.name with
        | some n => strip seps n ++ key1
        | none => key1
      let key3 :=
        match e.friendlyname with
        | some f => strip seps f
        | none => key2
      if key3 = [] then .error .indexError
      else .ok (some (replaceStr researchResearch research (capList (guardKey key3))))

/-- The ability insertion: both branches of
`if key in abilities and v["index"] == 0: ... else: ...` assign
`abilities[key] = v["id"]`. -/
def abilityInsert (t : Table) (k : Str) (idx : Nat) (i : Nat) : Table :=
  if k ∈ keys t ∧ idx = 0 then setKey t k i else setKey t k i

/-- One iteration of the ability loop body. -/
def parseAbilitiesStep (seps : List Char) (t : Table) (e : AbilityEntry) :
    Except PyError Table :=
  match abilityKeyRaw seps e with
  | .error err => .error err
  | .ok none => .ok t
  | .ok (some k) => .ok (abilityInsert t k e.index e.id)

/-- The ability loop over the remaining entries. -/
def parseAbilitiesList (seps : List Char) : Table → List AbilityEntry → Except PyError Table
  | t, [] => .ok t
  | t, e :: es =>
    match parseAbilitiesStep seps t e with
    | .error err => .error err
    | .ok t' => parseAbilitiesList seps t' es

/-- The ability parsing of `parse_data`, from the empty dict. -/
def parseAbilities (seps : List Char) (es : List AbilityEntry) : Except PyError Table :=
  parseAbilitiesList seps [] es

/-- A snapshot: the five category arrays of one `stableid.json` document. -/
structure Snapshot where
  units : List SimpleEntry
  upgrades : List SimpleEntry
  effects : List SimpleEntry
  buffs : List SimpleEntry
  abilities : List AbilityEntry
  deriving DecidableEq

/-- The five finalized tables returned by `parse_data`. -/
structure Tables where
  units : Table
  abilities : Table
  upgrades : Table
  buffs : Table
  effects : Table
  deriving DecidableEq

/-- The version tags that `parse_data` compares against: `None`
(the latest snapshot), `"4.10"` and `"linux505"`. -/
inductive Ver where
  | latest
  | v4_10
  | linux505
  deriving DecidableEq

/-- Apply a list of `table[key] = value` assignments in order
(the hand-maintained patch blocks). -/
def setKeys (t : Table) (ps : List (Str × Nat)) : Table :=
  ps.foldl (fun t p => setKey t p.1 p.2) t

namespace GenIds

/-- The `linux505` patch assignments to `units` in `generate_ids.py`. -/
def unitsPatch505 : List (Str × Nat) :=
  [(String.toList "AssimilatorRich", 1980), (String.toList "ExtractorRich", 1981),
   (String.toList "AccelerationZoneSmall", 1985), (String.toList "AccelerationZoneMedium", 1986),
   (String.toList "AccelerationZoneLarge", 1987)]

/-- The `linux505` patch assignments to `upgrades` in `generate_ids.py`. -/
def upgradesPatch505 : List (Str × Nat) :=
  [(String.toList "TempestGroundAttackUpgrade", 296), (String.toList "EnhancedShockwaves", 297)]

/-- The `linux505` patch assignments to `abilities` in `generate_ids.py`
(one assignment is written twice in the source, kept verbatim). -/
def abilitiesPatch505 : List (Str × Nat) :=
  [(String.toList "FleetBeaconResearchVoidRaySpeedUpgrade", 48),
   (String.toList "FleetBeaconResearchTempestResearchGroundAttackUpgrade", 49),
   (String.toList "FleetBeaconResearchTempestResearchGroundAttackUpgrade", 49),
   (String.toList "GhostAcademyResearchEnhancedShockwaves", 822),
   (String.toList "LurkerDenResearchLurkerRange", 3710),
   (String.toList "BatteryOverchargeBatteryOvercharge", 3815),
   (String.toList "AmorphousArmorcloudAmorphousArmorcloud", 3817)]

/-- The `linux505` patch assignments to `buffs` in `generate_ids.py`. -/
def buffsPatch505 : List (Str × Nat) :=
  [(String.toList "AccelerationZoneTemporalField", 290),
   (String.toList "AmorphousArmorcloud", 296),
   (String.toList "BatteryOvercharge", 298)]

/-- `parse_data(data, version)` of `generate_ids.py`: the four simple
categories, the abilities, then the version-tagged patch block. The
`"4.10"` patch block of the earlier script is commented out in this file,
so the `v4_10` tag applies no patch. -/
def parse_data (snap : Snapshot) (v : Ver) : Except PyError Tables :=
  match parseSimple sepsIds snap.units with
  | .error e => .error e
  | .ok units =>
    match parseSimple sepsIds snap.upgrades with
    | .error e => .error e
    | .ok upgrades =>
      match parseSimple sepsIds snap.effects with
      | .error e => .error e
      | .ok effects =>
        match parseSimple sepsIds snap.buffs with
        | .error e => .error e
        | .ok buffs =>
          match parseAbilities sepsIds snap.abilities with
          | .error e => .error e
          | .ok abilities =>
            match v with
            | .latest =>
              .ok ⟨units, setKey abilities (String.toList "TerranBuildRefinery") 320,
                   upgrades, buffs, effects⟩
            | .v4_10 => .ok ⟨units, abilities, upgrades, buffs, effects⟩
            | .linux505 =>
              .ok ⟨setKeys units unitsPatch505, setKeys abilities abilitiesPatch505,
                   setKeys upgrades upgradesPatch505, setKeys buffs buffsPatch505, effects⟩

end GenIds

namespace GenEnums

/-- `parse_data(data, version)` of `generate_enums.py`: separators are only
space and underscore, and the patch block maps `"4.10"` to the
`EnhancedShockwaves`/`GhostAcademyResearchEnhancedShockwaves` fixes and
`None` to the `TerranBuildRefinery` fix; any other tag applies no patch. -/
def parse_data (snap : Snapshot) (v : Ver) : Except PyError Tables :=
  match parseSimple sepsEnums snap.units with
  | .error e => .error e
  | .ok units =>
    match parseSimple sepsEnums snap.upgrades with
    | .error e => .error e
    | .ok upgrades =>
      match parseSimple sepsEnums snap.effects with
      | .error e => .error e
      | .ok effects =>
        match parseSimple sepsEnums snap.buffs with
        | .error e => .error e
        | .ok buffs =>
          match parseAbilities sepsEnums snap.abilities with
          | .error e => .error e
          | .ok abilities =>
            match v with
            | .v4_10 =>
              .ok ⟨units,
                   setKey abilities (String.toList "GhostAcademyResearchEnhancedShockwaves") 822,
                   setKey upgrades (String.toList "EnhancedShockwaves") 296, buffs, effects⟩
            | .latest =>
              .ok ⟨units, setKey abilities (String.toList "TerranBuildRefinery") 320,
                   upgrades, buffs, effects⟩
            | .linux505 => .ok ⟨units, abilities, upgrades, buffs, effects⟩

end GenEnums

/-- Validity of an emitted symbol (the amended invariant): non-empty,
the first character is not a digit, and no separator character
(space, underscore, `@`) occurs after the first character. -/
def validSymB : Str → Bool
  | [] => false
  | c :: cs => !isDigitChar c && cs.all (fun x => decide (x ∉ sepsIds))

/-- All keys of a table are valid symbols. -/
def allValidB (t : Table) : Bool := (keys t).all validSymB

theorem char_ofNat_toNat_alpha (m : Nat) (h1 : 65 ≤ m) (h2 : m ≤ 90) :
    (Char.ofNat m).toNat = m := by
  interval_cases m <;> decide

theorem upChar_eq_or (c : Char) :
    upChar c = c ∨ (65 ≤ (upChar c).toNat ∧ (upChar c).toNat ≤ 90) := by
  unfold upChar
  by_cases h : 97 ≤ c.toNat ∧ c.toNat ≤ 122
  · right
    rw [if_pos h, char_ofNat_toNat_alpha (c.toNat - 32) (by omega) (by omega)]
    omega
  · left
    rw [if_neg h]

theorem upChar_of_not_lower (c : Char) (h : ¬(97 ≤ c.toNat ∧ c.toNat ≤ 122)) :
    upChar c = c := by
  unfold upChar
  rw [if_neg h]

theorem upChar_idem (c : Char) : upChar (upChar c) = upChar c := by
  rcases upChar_eq_or c with h | h
  · rw [h]
    exact h
  · exact upChar_of_not_lower _ (by omega)

theorem isDigitChar_upChar (c : Char) (h : isDigitChar c = false) :
    isDigitChar (upChar c) = false := by
  rcases upChar_eq_or c with h' | h'
  · rw [h']
    exact h
  · simp only [isDigitChar, decide_eq_false_iff_not] at *
    omega

theorem upChar_notin_seps (seps : List Char)
    (hs : ∀ x ∈ seps, x.toNat < 65 ∨ 90 < x.toNat)
    (c : Char) (h : c ∉ seps) : upChar c ∉ seps := by
  rcases upChar_eq_or c with h' | h'
  · rw [h']
    exact h
  · intro hmem
    rcases hs _ hmem with h2 | h2 <;> omega

theorem mem_strip {seps : List Char} {s : Str} {c : Char} (h : c ∈ strip seps s) :
    c ∈ s ∧ c ∉ seps := by
  unfold strip at h
  simpa using List.mem_filter.mp h

theorem strip_eq_self {seps : List Char} {s : Str} (h : ∀ c ∈ s, c ∉ seps) :
    strip seps s = s := by
  unfold strip
  rw [List.filter_eq_self]
  simpa using h

theorem natCharsAux_congr : ∀ f g n, n < f → n < g → natCharsAux f n = natCharsAux g n := by
  intro f
  induction f with
  | zero => omega
  | succ f ih =>
    intro g n hf hg
    match g, hg with
    | g + 1, hg =>
      by_cases h10 : n < 10
      · simp [natCharsAux, h10]
      · have hdiv : n / 10 < n := Nat.div_lt_self (by omega) (by omega)
        simp only [natCharsAux, if_neg h10]
        rw [ih g (n / 10) (by omega) (by omega)]

theorem natCharsAux_ne_nil : ∀ f n, n < f → natCharsAux f n ≠ [] := by
  intro f
  induction f with
  | zero => omega
  | succ f ih =>
    intro n hf
    by_cases h10 : n < 10
    · simp [natCharsAux, h10]
    · simp [natCharsAux, h10]

theorem natChars_ne_nil (n : Nat) : natChars n ≠ [] :=
  natCharsAux_ne_nil (n + 1) n (by omega)

theorem digitChar_toNat (d : Nat) (h : d < 10) : (digitChar d).toNat = 48 + d := by
  interval_cases d <;> decide

theorem digitChar_inj {d e : Nat} (hd : d < 10) (he : e < 10)
    (h : digitChar d = digitChar e) : d = e := by
  have h2 := congrArg Char.toNat h
  rw [digitChar_toNat d hd, digitChar_toNat e he] at h2
  omega

theorem natCharsAux_inj : ∀ f g m n, m < f → n < g →
    natCharsAux f m = natCharsAux g n → m = n := by
  intro f
  induction f with
  | zero => omega
  | succ f ih =>
    intro g m n hf hg h
    match g, hg with
    | g + 1, hg =>
      by_cases hm : m < 10 <;> by_cases hn : n < 10
      · simp only [natCharsAux, if_pos hm, if_pos hn, List.cons.injEq] at h
        exact digitChar_inj hm hn h.1
      · exfalso
        simp only [natCharsAux, if_pos hm, if_neg hn] at h
        have hne := natCharsAux_ne_nil g (n / 10)
          (by have hdd : n / 10 < n := Nat.div_lt_self (by omega) (by omega); omega)
        have hl := congrArg List.length h
        simp only [List.length_cons, List.length_nil, List.length_append] at hl
        exact hne (List.length_eq_zero.mp (by omega))
      · exfalso
        simp only [natCharsAux, if_neg hm, if_pos hn] at h
        have hne := natCharsAux_ne_nil f (m / 10)
          (by have hdd : m / 10 < m := Nat.div_lt_self (by omega) (by omega); omega)
        have hl := congrArg List.length h
        simp only [List.length_cons, List.length_nil, List.length_append] at hl
        exact hne (List.length_eq_zero.mp (by omega))
      · simp only [natCharsAux, if_neg hm, if_neg hn] at h
        have h2 := congrArg List.reverse h
        simp only [List.reverse_append, List.reverse_cons, List.reverse_nil,
          List.nil_append, List.cons_append, List.cons.injEq] at h2
        obtain ⟨hdig, hrest⟩ := h2
        have hmod := digitChar_inj (Nat.mod_lt m (by omega)) (Nat.mod_lt n (by omega)) hdig
        have hdm : m / 10 < m := Nat.div_lt_self (by omega) (by omega)
        have hdn : n / 10 < n := Nat.div_lt_self (by omega) (by omega)
        have hdiv := ih g (m / 10) (n / 10) (by omega) (by omega)
          (List.reverse_injective hrest)
        omega

theorem natChars_inj {m n : Nat} (h : natChars m = natChars n) : m = n :=
  natCharsAux_inj (m + 1) (n + 1) m n (by omega) (by omega) h

theorem keys_setKey (t : Table) (k : Str) (v : Nat) :
    keys (setKey t k v) = if k ∈ keys t then keys t else keys t ++ [k] := by
  induction t with
  | nil => simp [setKey, keys]
  | cons p t ih =>
    obtain ⟨k', v'⟩ := p
    by_cases h : k' = k
    · subst h
      simp [setKey, keys]
    · simp only [setKey, if_neg h, keys, List.map_cons]
      have hmem : (k ∈ k' :: keys t) = (k ∈ keys t) := by
        simp [Ne.symm h]
      by_cases h2 : k ∈ keys t
      · simp only [keys] at ih h2
        simp [h2, Ne.symm h, ih]
      · simp only [keys] at ih h2
        simp [h2, Ne.symm h, ih]

theorem setKey_of_not_mem (t : Table) (k : Str) (v : Nat) (h : k ∉ keys t) :
    setKey t k v = t ++ [(k, v)] := by
  induction t with
  | nil => simp [setKey]
  | cons p t ih =>
    obtain ⟨k', v'⟩ := p
    simp only [keys, List.map_cons, List.mem_cons] at h
    push_neg at h
    simp only [setKey, if_neg (Ne.symm h.1), List.cons_append, List.cons.injEq, true_and]
    exact ih h.2

theorem lookup_setKey_self (t : Table) (k : Str) (v : Nat) :
    lookup (setKey t k v) k = some v := by
  induction t with
  | nil => simp [setKey, lookup]
  | cons p t ih =>
    obtain ⟨k', v'⟩ := p
    by_cases h : k' = k
    · subst h
      simp [setKey, lookup]
    · simp [setKey, lookup, h, ih]

theorem suffixFrom_spec (t : Table) (g : Str) :
    ∀ fuel i, (∃ j, i ≤ j ∧ j < i + fuel ∧ g ++ natChars j ∉ keys t) →
    ∃ m, i ≤ m ∧ g ++ natChars m ∉ keys t ∧
      (∀ j, i ≤ j → j < m → g ++ natChars j ∈ keys t) ∧
      suffixFrom t g fuel i = g ++ natChars m := by
  intro fuel
  induction fuel with
  | zero =>
    rintro i ⟨j, h1, h2, _⟩
    omega
  | succ f ih =>
    rintro i ⟨j, h1, h2, h3⟩
    by_cases hi : g ++ natChars i ∈ keys t
    · have hij : i ≠ j := by
        rintro rfl
        exact h3 hi
      obtain ⟨m, hm1, hm2, hm3, hm4⟩ := ih (i + 1) ⟨j, by omega, by omega, h3⟩
      refine ⟨m, by omega, hm2, ?_, ?_⟩
      · intro j' hj1 hj2
        rcases Nat.eq_or_lt_of_le hj1 with rfl | hlt
        · exact hi
        · exact hm3 j' (by omega) hj2
      · unfold suffixFrom
        rw [if_pos hi]
        exact hm4
    · refine ⟨i, Nat.le_refl i, hi, by omega, ?_⟩
      unfold suffixFrom
      rw [if_neg hi]

theorem exists_unused (t : Table) (g : Str) (i : Nat) :
    ∃ j, i ≤ j ∧ j < i + (t.length + 1) ∧ g ++ natChars j ∉ keys t := by
  by_contra hcon
  push_neg at hcon
  have hsub : (List.range (t.length + 1)).map (fun d => g ++ natChars (i + d)) ⊆ keys t := by
    intro x hx
    simp only [List.mem_map, List.mem_range] at hx
    obtain ⟨d, hd, rfl⟩ := hx
    exact hcon _ (by omega) (by omega)
  have hnd : ((List.range (t.length + 1)).map (fun d => g ++ natChars (i + d))).Nodup := by
    refine List.Nodup.map ?_ (List.nodup_range _)
    intro a b hab
    have h2 := natChars_inj (List.append_cancel_left hab)
    omega
  have h1 : ((List.range (t.length + 1)).map (fun d => g ++ natChars (i + d))).toFinset.card
      = t.length + 1 := by
    rw [List.toFinset_card_of_nodup hnd]
    simp
  have h2 := Finset.card_le_card
    (Finset.subset_iff.mpr fun x hx => List.mem_toFinset.mpr (hsub (List.mem_toFinset.mp hx)))
  have h3 : (keys t).toFinset.card ≤ t.length := by
    have h4 := List.toFinset_card_le (l := keys t)
    simpa [keys] using h4
  omega

theorem findSuffix_spec (t : Table) (g : Str) :
    ∃ m, 2 ≤ m ∧ g ++ natChars m ∉ keys t ∧
      (∀ j, 2 ≤ j → j < m → g ++ natChars j ∈ keys t) ∧
      findSuffix t g = g ++ natChars m :=
  suffixFrom_spec t g (t.length + 1) 2 (exists_unused t g 2)

theorem abilityInsert_eq_setKey (t : Table) (k : Str) (idx i : Nat) :
    abilityInsert t k idx i = setKey t k i := by
  unfold abilityInsert
  exact ite_self _

theorem capList_append_of_ne_nil (g suffix2 : Str) (hg : g ≠ []) :
    capList (g ++ suffix2) = capList g ++ suffix2 := by
  cases g with
  | nil => exact absurd rfl hg
  | cons c cs => simp [capList]

theorem guardKey_ne_nil (c : Char) (cs : Str) : guardKey (c :: cs) ≠ [] := by
  simp only [guardKey]
  split <;> simp

/-- The hypothesis under which a simple-category raw entry behaves as the
spec describes: a non-empty name normalizes to a non-empty key whose first
character is unchanged by capitalization. -/
def goodEntry (seps : List Char) (e : SimpleEntry) : Prop :=
  e.name ≠ [] → (strip seps e.name ≠ [] ∧
    capList (guardKey (strip seps e.name)) = guardKey (strip seps e.name))

instance (seps : List Char) (e : SimpleEntry) : Decidable (goodEntry seps e) := by
  unfold goodEntry
  infer_instance

theorem parseSimpleStep_fresh (seps : List Char) (t : Table) (e : SimpleEntry)
    (h1 : e.name ≠ []) (h2 : strip seps e.name ≠ [])
    (h3 : capList (guardKey (strip seps e.name)) = guardKey (strip seps e.name)) :
    ∃ k, k ∉ keys t ∧ parseSimpleStep seps t e = .ok (t ++ [(k, e.id)]) ∧
      (guardKey (strip seps e.name) ∉ keys t → k = guardKey (strip seps e.name)) := by
  unfold parseSimpleStep
  rw [if_neg h1, if_neg h2]
  have hgnil : guardKey (strip seps e.name) ≠ [] := by
    cases hstrip : strip seps e.name with
    | nil => exact absurd hstrip h2
    | cons c cs => exact guardKey_ne_nil c cs
  by_cases hmem : guardKey (strip seps e.name) ∈ keys t
  · obtain ⟨m, _, hunused, _, heq⟩ := findSuffix_spec t (guardKey (strip seps e.name))
    refine ⟨guardKey (strip seps e.name) ++ natChars m, hunused, ?_, fun hcon => absurd hmem hcon⟩
    simp only [if_pos hmem, heq]
    rw [capList_append_of_ne_nil _ _ hgnil, h3, setKey_of_not_mem t _ e.id hunused]
  · refine ⟨guardKey (strip seps e.name), hmem, ?_, fun _ => rfl⟩
    simp only [if_neg hmem]
    rw [h3, setKey_of_not_mem t _ e.id hmem]

theorem parseSimpleList_spec (seps : List Char) :
    ∀ (es : List SimpleEntry) (t : Table), (∀ e ∈ es, goodEntry seps e) →
    (keys t).Nodup →
    ∃ ext, parseSimpleList seps t es = .ok (t ++ ext) ∧
      (keys t ++ ext.map Prod.fst).Nodup ∧
      ext.map Prod.snd = (es.filter fun e => decide (e.name ≠ [])).map SimpleEntry.id := by
  intro es
  induction es with
  | nil =>
    intro t _ hnd
    exact ⟨[], by simp [parseSimpleList], by simpa using hnd, by simp⟩
  | cons e es ih =>
    intro t h hnd
    by_cases hname : e.name = []
    · have hstep : parseSimpleStep seps t e = .ok t := by
        unfold parseSimpleStep
        rw [if_pos hname]
      obtain ⟨ext, he, hnd', hmap⟩ := ih t (fun x hx => h x (List.mem_cons_of_mem e hx)) hnd
      refine ⟨ext, ?_, hnd', ?_⟩
      · unfold parseSimpleList
        rw [hstep]
        exact he
      · simp [hname, hmap]
    · obtain ⟨hs, hcap⟩ := h e (List.mem_cons_self e es) hname
      obtain ⟨k, hk, hstep, _⟩ := parseSimpleStep_fresh seps t e hname hs hcap
      have hnd2 : (keys (t ++ [(k, e.id)])).Nodup := by
        unfold keys
        rw [List.map_append]
        rw [List.nodup_append]
        exact ⟨hnd, List.nodup_singleton k, by simpa [keys, List.disjoint_singleton] using hk⟩
      obtain ⟨ext, he, hnd', hmap⟩ :=
        ih (t ++ [(k, e.id)]) (fun x hx => h x (List.mem_cons_of_mem e hx)) hnd2
      refine ⟨(k, e.id) :: ext, ?_, ?_, ?_⟩
      · unfold parseSimpleList
        rw [hstep]
        show parseSimpleList seps (t ++ [(k, e.id)]) es = _
        rw [he]
        simp
      · unfold keys at hnd'
        rw [List.map_append] at hnd'
        simpa using hnd'
      · simp [hname, hmap]

end StableIdGen

deriving instance DecidableEq for Except

namespace StableIdGen

/-- Claim C1 (counterexample): an ability entry with an empty button label
that carries a remap reference is NOT silently skipped — the code only
skips when the remap reference is absent; with a remap reference and a
non-empty friendly label it computes a symbol and contributes it to the
table. -/
theorem remap_placeholder_not_skipped :
    abilityKeyRaw sepsIds ⟨[], some 0, some (String.toList "Stim"), none, 0, 7⟩
      = .ok (some (String.toList "Stim")) ∧
    parseAbilities sepsIds [⟨[], some 0, some (String.toList "Stim"), none, 0, 7⟩]
      = .ok [(String.toList "Stim", 7)] :=
  ⟨by decide, by decide⟩

/-- Claim C1 (amended): an ability entry whose button label is empty and
whose remap reference is absent is silently skipped — it contributes no
symbol and raises no error. -/
theorem empty_button_no_remap_skipped (seps : List Char) (e : AbilityEntry)
    (h1 : e.buttonname = []) (h2 : e.remapid = none) :
    abilityKeyRaw seps e = .ok none := by
  unfold abilityKeyRaw
  rw [if_pos ⟨h1, h2⟩]

/-- Claim C1 (witness): the amended skip theorem evaluated at a concrete
placeholder entry. -/
theorem empty_button_no_remap_skipped_witness :
    ((⟨[], none, none, none, 3, 11⟩ : AbilityEntry).buttonname = [] ∧
     (⟨[], none, none, none, 3, 11⟩ : AbilityEntry).remapid = none) ∧
    abilityKeyRaw sepsIds (⟨[], none, none, none, 3, 11⟩ : AbilityEntry) = .ok none :=
  ⟨⟨rfl, rfl⟩, empty_button_no_remap_skipped sepsIds _ rfl rfl⟩

/-- Claim C2 (counterexample): an ability entry with no button label, no
remap reference and no (empty) friendly label does NOT abort the run — it
is silently skipped by the placeholder branch before the friendly-label
fallback is ever consulted. -/
theorem no_label_entry_skipped_not_fatal :
    abilityKeyRaw sepsIds ⟨[], none, some [], none, 0, 5⟩ = .ok none ∧
    parseAbilities sepsIds [⟨[], none, some [], none, 0, 5⟩] = .ok [] :=
  ⟨by decide, by decide⟩

/-- Claim C2 (amended): the fatal `Not mapped` abort, carrying the
offending raw entry, fires exactly when the button label is empty, a remap
reference IS present, and the friendly label is present but empty. -/
theorem not_mapped_abort (seps : List Char) (e : AbilityEntry) (r : Int)
    (h1 : e.buttonname = []) (h2 : e.remapid = some r) (h3 : e.friendlyname = some []) :
    abilityKeyRaw seps e = .error (.exitNotMapped e) := by
  unfold abilityKeyRaw
  rw [if_neg (by simp [h2])]
  simp [h1, h3]

/-- Claim C2 (witness): the amended abort theorem evaluated at a concrete
malformed entry. -/
theorem not_mapped_abort_witness :
    ((⟨[], some 4, some [], none, 0, 9⟩ : AbilityEntry).buttonname = [] ∧
     (⟨[], some 4, some [], none, 0, 9⟩ : AbilityEntry).remapid = some 4 ∧
     (⟨[], some 4, some [], none, 0, 9⟩ : AbilityEntry).friendlyname = some []) ∧
    abilityKeyRaw sepsIds (⟨[], some 4, some [], none, 0, 9⟩ : AbilityEntry)
      = .error (.exitNotMapped ⟨[], some 4, some [], none, 0, 9⟩) :=
  ⟨⟨rfl, rfl, rfl⟩, not_mapped_abort sepsIds _ 4 rfl rfl rfl⟩

/-- Claim C3 (counterexample): two raw entries both named `zealot` yield a
single table entry `{Zealot: 2}` — the collision check runs on the
pre-capitalization key, so the capitalized duplicate silently overwrites
the first entry instead of being suffixed; the finalized table does not
contain one entry per raw entry. -/
theorem lowercase_name_collision_lost :
    parseSimple sepsIds [⟨String.toList "zealot", 1⟩, ⟨String.toList "zealot", 2⟩]
      = .ok [(String.toList "Zealot", 2)] ∧
    ¬ ∃ tbl, parseSimple sepsIds [⟨String.toList "zealot", 1⟩, ⟨String.toList "zealot", 2⟩]
        = .ok tbl ∧
      tbl.map Prod.snd
        = (([⟨String.toList "zealot", 1⟩, ⟨String.toList "zealot", 2⟩] :
            List SimpleEntry).filter fun e => decide (e.name ≠ [])).map SimpleEntry.id := by
  have h0 : parseSimple sepsIds [⟨String.toList "zealot", 1⟩, ⟨String.toList "zealot", 2⟩]
      = .ok [(String.toList "Zealot", 2)] := by decide
  refine ⟨h0, ?_⟩
  rintro ⟨tbl, heq, hmap⟩
  rw [h0] at heq
  have htbl : tbl = [(String.toList "Zealot", 2)] := (Except.ok.inj heq).symm
  rw [htbl] at hmap
  exact absurd hmap (by decide)

/-- Claim C3 (amended): for raw entries whose normalized name is non-empty
and whose first character is unchanged by capitalization, the finalized
table has one entry per non-empty-named raw entry, with pairwise distinct
symbols, the ids appearing in input order; the suffixing mechanism never
overwrites an earlier entry. -/
theorem parse_simple_one_entry_per_raw (seps : List Char) (es : List SimpleEntry)
    (h : ∀ e ∈ es, goodEntry seps e) :
    ∃ tbl, parseSimple seps es = .ok tbl ∧ (keys tbl).Nodup ∧
      tbl.map Prod.snd = (es.filter fun e => decide (e.name ≠ [])).map SimpleEntry.id := by
  obtain ⟨ext, he, hnd, hmap⟩ := parseSimpleList_spec seps es [] h (by simp [keys])
  refine ⟨ext, by simpa [parseSimple] using he, ?_, hmap⟩
  simpa [keys] using hnd

/-- Claim C3 (witness): the amended theorem evaluated on three colliding
`Zealot` entries. -/
theorem parse_simple_one_entry_per_raw_witness :
    ∃ tbl, parseSimple sepsIds
        [⟨String.toList "Zealot", 1⟩, ⟨String.toList "Zealot", 2⟩, ⟨String.toList "Zealot", 3⟩]
      = .ok tbl ∧ (keys tbl).Nodup ∧
      tbl.map Prod.snd
        = (([⟨String.toList "Zealot", 1⟩, ⟨String.toList "Zealot", 2⟩,
             ⟨String.toList "Zealot", 3⟩] : List SimpleEntry).filter
            fun e => decide (e.name ≠ [])).map SimpleEntry.id :=
  parse_simple_one_entry_per_raw sepsIds _ (by decide)

/-- Claim C4: when the guarded normalized key already exists in the table,
the colliding entry is inserted under that key extended with the smallest
unused decimal suffix, suffixes being tried in increasing order from 2;
in particular three `Zealot` entries with ids 1, 2, 3 yield exactly
`{Zealot: 1, Zealot2: 2, Zealot3: 3}`. -/
theorem collision_smallest_suffix :
    (∀ (seps : List Char) (t : Table) (e : SimpleEntry),
      (∀ k ∈ keys t, capList k = k) → e.name ≠ [] → strip seps e.name ≠ [] →
      guardKey (strip seps e.name) ∈ keys t →
      ∃ m, 2 ≤ m ∧ guardKey (strip seps e.name) ++ natChars m ∉ keys t ∧
        (∀ j, 2 ≤ j → j < m → guardKey (strip seps e.name) ++ natChars j ∈ keys t) ∧
        parseSimpleStep seps t e
          = .ok (setKey t (guardKey (strip seps e.name) ++ natChars m) e.id)) ∧
    parseSimple sepsIds
        [⟨String.toList "Zealot", 1⟩, ⟨String.toList "Zealot", 2⟩, ⟨String.toList "Zealot", 3⟩]
      = .ok [(String.toList "Zealot", 1), (String.toList "Zealot2", 2),
             (String.toList "Zealot3", 3)] := by
  constructor
  · intro seps t e htk h1 h2 hg
    have hgnil : guardKey (strip seps e.name) ≠ [] := by
      cases hstrip : strip seps e.name with
      | nil => exact absurd hstrip h2
      | cons c cs => exact guardKey_ne_nil c cs
    obtain ⟨m, hm2, hunused, hmin, heq⟩ := findSuffix_spec t (guardKey (strip seps e.name))
    refine ⟨m, hm2, hunused, hmin, ?_⟩
    unfold parseSimpleStep
    rw [if_neg h1, if_neg h2]
    simp only [if_pos hg, heq]
    rw [capList_append_of_ne_nil _ _ hgnil, htk _ hg]
  · decide

/-- Claim C4 (witness): the general collision statement evaluated at the
singleton table `{Zealot: 1}` and a second colliding `Zealot` entry. -/
theorem collision_smallest_suffix_witness :
    ∃ m, 2 ≤ m ∧
      guardKey (strip sepsIds (String.toList "Zealot")) ++ natChars m
        ∉ keys [(String.toList "Zealot", 1)] ∧
      (∀ j, 2 ≤ j → j < m →
        guardKey (strip sepsIds (String.toList "Zealot")) ++ natChars j
          ∈ keys [(String.toList "Zealot", 1)]) ∧
      parseSimpleStep sepsIds [(String.toList "Zealot", 1)] ⟨String.toList "Zealot", 2⟩
        = .ok (setKey [(String.toList "Zealot", 1)]
            (guardKey (strip sepsIds (String.toList "Zealot")) ++ natChars m) 2) :=
  collision_smallest_suffix.1 sepsIds [(String.toList "Zealot", 1)]
    ⟨String.toList "Zealot", 2⟩ (by decide) (by decide) (by decide) (by decide)

/-- Claim C5 (counterexample): a raw entry whose name is a single space is
not skipped — normalization leaves the empty string, the digit-guard
indexes into it, and the run dies with an index error instead of
completing. -/
theorem blank_name_index_error :
    parseSimple sepsIds [⟨[' '], 1⟩] = .error .indexError ∧
    ¬ ∃ tbl, parseSimple sepsIds [⟨[' '], 1⟩] = .ok tbl := by
  have h0 : parseSimple sepsIds [⟨[' '], 1⟩] = .error .indexError := by decide
  refine ⟨h0, ?_⟩
  rintro ⟨tbl, heq⟩
  rw [h0] at heq
  exact Except.noConfusion heq

/-- Claim C5 (amended): a raw entry with a non-empty name that normalizes
to the empty string is not skipped; the digit-guard check indexes the
empty normalized string and the step fails with an index error.
(Separator removal itself is total — only the subsequent indexing fails.) -/
theorem nonempty_name_empty_normal_errors (seps : List Char) (t : Table) (e : SimpleEntry)
    (h1 : e.name ≠ []) (h2 : strip seps e.name = []) :
    parseSimpleStep seps t e = .error .indexError := by
  unfold parseSimpleStep
  rw [if_neg h1, if_pos h2]

/-- Claim C5 (witness): the amended theorem evaluated at the
single-space-named entry. -/
theorem nonempty_name_empty_normal_errors_witness :
    ((⟨[' '], 1⟩ : SimpleEntry).name ≠ [] ∧ strip sepsIds (⟨[' '], 1⟩ : SimpleEntry).name = []) ∧
    parseSimpleStep sepsIds [] (⟨[' '], 1⟩ : SimpleEntry) = .error .indexError :=
  ⟨⟨by decide, by decide⟩, nonempty_name_empty_normal_errors sepsIds [] _ (by decide) (by decide)⟩

/-- Claim C6: for abilities a colliding symbol is always overwritten with
the new entry's id, whatever the entry's index field is — both branches of
the index test perform the same dict assignment, the new id wins, and the
key set gains at most the new symbol (no suffix is ever appended). -/
theorem ability_collision_overwrite (t : Table) (k : Str) (idx i : Nat) :
    abilityInsert t k idx i = setKey t k i ∧
    lookup (abilityInsert t k idx i) k = some i ∧
    keys (abilityInsert t k idx i) = if k ∈ keys t then keys t else keys t ++ [k] := by
  have h : abilityInsert t k idx i = setKey t k i := abilityInsert_eq_setKey t k idx i
  refine ⟨h, ?_, ?_⟩
  · rw [h]
    exact lookup_setKey_self t k i
  · rw [h]
    exact keys_setKey t k i

/-- Claim C10: an ability entry with a non-empty button label and a
friendly-name field whose value normalizes to the empty string neither
skips nor produces a symbol: the friendly label overrides the computed key
on mere presence, and the digit-guard then indexes the empty string, so
the step fails with an index error. -/
theorem friendly_empty_overrides_index_error (seps : List Char) (e : AbilityEntry) (f : Str)
    (h1 : e.buttonname ≠ []) (h2 : e.friendlyname = some f) (h3 : strip seps f = []) :
    abilityKeyRaw seps e = .error .indexError := by
  unfold abilityKeyRaw
  rw [if_neg (by simp [h1])]
  simp [h1, h2, h3]

theorem natCharsAux_digits : ∀ f n c, c ∈ natCharsAux f n →
    48 ≤ c.toNat ∧ c.toNat ≤ 57 := by
  intro f
  induction f with
  | zero =>
    intro n c h
    simp [natCharsAux] at h
  | succ f ih =>
    intro n c h
    by_cases h10 : n < 10
    · simp only [natCharsAux, if_pos h10, List.mem_singleton] at h
      subst h
      rw [digitChar_toNat n h10]
      omega
    · simp only [natCharsAux, if_neg h10, List.mem_append, List.mem_singleton] at h
      rcases h with h | h
      · exact ih _ _ h
      · subst h
        rw [digitChar_toNat _ (Nat.mod_lt n (by omega))]
        omega

theorem natChars_notin_seps (n : Nat) (c : Char) (h : c ∈ natChars n) : c ∉ sepsIds := by
  have hd := natCharsAux_digits (n + 1) n c h
  intro hmem
  simp only [sepsIds, List.mem_cons, List.not_mem_nil, or_false] at hmem
  rcases hmem with rfl | rfl | rfl <;> revert hd <;> decide

theorem validSymB_cons (c : Char) (cs : Str) :
    validSymB (c :: cs) = true ↔ isDigitChar c = false ∧ ∀ x ∈ cs, x ∉ sepsIds := by
  simp [validSymB, List.all_eq_true]

theorem validSymB_norm (u : Str) (hu : u ≠ []) (hsep : ∀ x ∈ u, x ∉ sepsIds) (suf : Str)
    (hsuf : ∀ x ∈ suf, x ∉ sepsIds) :
    validSymB (capList (guardKey u ++ suf)) = true := by
  cases u with
  | nil => exact absurd rfl hu
  | cons c cs =>
    have hc : c ∉ sepsIds := hsep c (List.mem_cons_self c cs)
    have hcs : ∀ x ∈ cs, x ∉ sepsIds := fun x hx => hsep x (List.mem_cons_of_mem c hx)
    by_cases hd : isDigitChar c = true
    · have hg : guardKey (c :: cs) = '_' :: c :: cs := by simp [guardKey, hd]
      rw [hg]
      have hcap : capList (('_' :: c :: cs) ++ suf) = '_' :: (c :: cs ++ suf) := by
        simp [capList, show upChar '_' = '_' from by decide]
      rw [hcap, validSymB_cons]
      refine ⟨by decide, ?_⟩
      intro x hx
      rcases List.mem_cons.mp hx with rfl | hx2
      · exact hc
      · rcases List.mem_append.mp hx2 with hx3 | hx3
        · exact hcs x hx3
        · exact hsuf x hx3
    · have hg : guardKey (c :: cs) = c :: cs := by simp [guardKey, hd]
      rw [hg]
      have hcap : capList ((c :: cs) ++ suf) = upChar c :: (cs ++ suf) := by
        simp [capList]
      rw [hcap, validSymB_cons]
      refine ⟨isDigitChar_upChar c (Bool.not_eq_true _ ▸ hd), ?_⟩
      intro x hx
      rcases List.mem_append.mp hx with hx2 | hx2
      · exact hcs x hx2
      · exact hsuf x hx2

theorem allValidB_setKey (t : Table) (k : Str) (v : Nat)
    (ht : allValidB t = true) (hk : validSymB k = true) :
    allValidB (setKey t k v) = true := by
  unfold allValidB at *
  rw [List.all_eq_true] at *
  intro x hx
  rw [keys_setKey] at hx
  by_cases hmem : k ∈ keys t
  · rw [if_pos hmem] at hx
    exact ht x hx
  · rw [if_neg hmem] at hx
    rcases List.mem_append.mp hx with hx2 | hx2
    · exact ht x hx2
    · rw [List.mem_singleton.mp hx2]
      exact hk

theorem allValidB_setKeys : ∀ (ps : List (Str × Nat)) (t : Table),
    allValidB t = true → (ps.all fun p => validSymB p.1) = true →
    allValidB (setKeys t ps) = true := by
  intro ps
  induction ps with
  | nil =>
    intro t ht _
    exact ht
  | cons p ps ih =>
    intro t ht hp
    rw [List.all_cons, Bool.and_eq_true] at hp
    exact ih (setKey t p.1 p.2) (allValidB_setKey t p.1 p.2 ht hp.1) hp.2

theorem parseSimpleStep_valid (t : Table) (e : SimpleEntry) (t' : Table)
    (h : parseSimpleStep sepsIds t e = .ok t') (ht : allValidB t = true) :
    allValidB t' = true := by
  unfold parseSimpleStep at h
  by_cases h1 : e.name = []
  · rw [if_pos h1] at h
    rw [← Except.ok.inj h]
    exact ht
  · rw [if_neg h1] at h
    by_cases h2 : strip sepsIds e.name = []
    · rw [if_pos h2] at h
      exact Except.noConfusion h
    · rw [if_neg h2] at h
      simp only at h
      have hsep : ∀ x ∈ strip sepsIds e.name, x ∉ sepsIds := fun x hx => (mem_strip hx).2
      by_cases hmem : guardKey (strip sepsIds e.name) ∈ keys t
      · rw [if_pos hmem] at h
        obtain ⟨m, _, _, _, heq⟩ := findSuffix_spec t (guardKey (strip sepsIds e.name))
        rw [heq] at h
        rw [← Except.ok.inj h]
        exact allValidB_setKey t _ e.id ht
          (validSymB_norm _ h2 hsep (natChars m) (fun x hx => natChars_notin_seps m x hx))
      · rw [if_neg hmem] at h
        rw [← Except.ok.inj h]
        have hv := validSymB_norm _ h2 hsep [] (by simp)
        rw [List.append_nil] at hv
        exact allValidB_setKey t _ e.id ht hv

theorem parseSimpleList_valid : ∀ (es : List SimpleEntry) (t t' : Table),
    parseSimpleList sepsIds t es = .ok t' → allValidB t = true → allValidB t' = true := by
  intro es
  induction es with
  | nil =>
    intro t t' h ht
    unfold parseSimpleList at h
    rw [← Except.ok.inj h]
    exact ht
  | cons e es ih =>
    intro t t' h ht
    unfold parseSimpleList at h
    cases hstep : parseSimpleStep sepsIds t e with
    | error err =>
      rw [hstep] at h
      exact Except.noConfusion h
    | ok t2 =>
      rw [hstep] at h
      exact ih t2 t' h (parseSimpleStep_valid t e t2 hstep ht)

theorem replaceStrAux_subset (pat rep : List Char) :
    ∀ fuel s x, x ∈ replaceStrAux pat rep fuel s → x ∈ s ∨ x ∈ rep := by
  intro fuel
  induction fuel with
  | zero =>
    intro s x h
    cases s with
    | nil => simp [replaceStrAux] at h
    | cons c cs =>
      simp only [replaceStrAux] at h
      exact Or.inl h
  | succ f ih =>
    intro s x h
    cases s with
    | nil => simp [replaceStrAux] at h
    | cons c cs =>
      simp only [replaceStrAux] at h
      by_cases hp : pat.isPrefixOf (c :: cs) = true
      · rw [if_pos hp] at h
        rcases List.mem_append.mp h with h2 | h2
        · exact Or.inr h2
        · rcases ih _ x h2 with h3 | h3
          · exact Or.inl (List.drop_subset _ _ h3)
          · exact Or.inr h3
      · rw [if_neg hp] at h
        rcases List.mem_cons.mp h with rfl | h2
        · exact Or.inl (List.mem_cons_self _ _)
        · rcases ih cs x h2 with h3 | h3
          · exact Or.inl (List.mem_cons_of_mem c h3)
          · exact Or.inr h3

theorem research_notin_seps : ∀ y ∈ research, y ∉ sepsIds := by decide

theorem validSymB_replaceRR (s : Str) (hv : validSymB s = true) :
    validSymB (replaceStr researchResearch research s) = true := by
  cases s with
  | nil => exact absurd hv (by decide)
  | cons c cs =>
    rw [validSymB_cons] at hv
    obtain ⟨hd, hcs⟩ := hv
    unfold replaceStr
    simp only [List.length_cons, replaceStrAux]
    by_cases hp : researchResearch.isPrefixOf (c :: cs) = true
    · rw [if_pos hp]
      have hres : research = 'R' :: String.toList "esearch" := by decide
      rw [hres, List.cons_append, validSymB_cons]
      refine ⟨by decide, ?_⟩
      intro x hx
      rcases List.mem_append.mp hx with h2 | h2
      · exact (show ∀ y ∈ String.toList "esearch", y ∉ sepsIds from by decide) x h2
      · rcases replaceStrAux_subset _ _ _ _ x h2 with h3 | h3
        · have hdrop : (c :: cs).drop researchResearch.length = cs.drop 15 := rfl
          rw [hdrop] at h3
          exact hcs x (List.drop_subset _ _ h3)
        · exact (hres ▸ research_notin_seps) x h3
    · rw [if_neg hp, validSymB_cons]
      refine ⟨hd, ?_⟩
      intro x hx
      rcases replaceStrAux_subset _ _ _ _ x hx with h3 | h3
      · exact hcs x h3
      · exact research_notin_seps x h3

theorem abilityKeyRaw_valid (e : AbilityEntry) (k : Str)
    (h : abilityKeyRaw sepsIds e = .ok (some k)) : validSymB k = true := by
  unfold abilityKeyRaw at h
  by_cases hskip : e.buttonname = [] ∧ e.remapid = none
  · rw [if_pos hskip] at h
    exact absurd (Except.ok.inj h) (by simp)
  · rw [if_neg hskip] at h
    split at h
    · exact Except.noConfusion h
    · rename_i key0 heq
      cases hf : e.friendlyname with
      | some f =>
        simp only [hf] at h
        by_cases h3 : strip sepsIds f = []
        · rw [if_pos h3] at h
          exact Except.noConfusion h
        · rw [if_neg h3] at h
          obtain rfl := Option.some.inj (Except.ok.inj h)
          apply validSymB_replaceRR
          have hv := validSymB_norm (strip sepsIds f) h3
            (fun x hx => (mem_strip hx).2) [] (by simp)
          rw [List.append_nil] at hv
          exact hv
      | none =>
        simp only [hf] at h
        cases hn : e.name with
        | some n =>
          simp only [hn] at h
          by_cases h3 : strip sepsIds n ++ strip sepsIds key0 = []
          · rw [if_pos h3] at h
            exact Except.noConfusion h
          · rw [if_neg h3] at h
            obtain rfl := Option.some.inj (Except.ok.inj h)
            apply validSymB_replaceRR
            have hv := validSymB_norm (strip sepsIds n ++ strip sepsIds key0) h3
              (fun x hx => by
                rcases List.mem_append.mp hx with h4 | h4
                · exact (mem_strip h4).2
                · exact (mem_strip h4).2) [] (by simp)
            rw [List.append_nil] at hv
            exact hv
        | none =>
          simp only [hn] at h
          by_cases h3 : strip sepsIds key0 = []
          · rw [if_pos h3] at h
            exact Except.noConfusion h
          · rw [if_neg h3] at h
            obtain rfl := Option.some.inj (Except.ok.inj h)
            apply validSymB_replaceRR
            have hv := validSymB_norm (strip sepsIds key0) h3
              (fun x hx => (mem_strip hx).2) [] (by simp)
            rw [List.append_nil] at hv
            exact hv

theorem parseAbilitiesStep_valid (t : Table) (e : AbilityEntry) (t' : Table)
    (h : parseAbilitiesStep sepsIds t e = .ok t') (ht : allValidB t = true) :
    allValidB t' = true := by
  unfold parseAbilitiesStep at h
  cases hk : abilityKeyRaw sepsIds e with
  | error err =>
    rw [hk] at h
    exact Except.noConfusion h
  | ok o =>
    rw [hk] at h
    cases o with
    | none =>
      rw [← Except.ok.inj h]
      exact ht
    | some k =>
      rw [← Except.ok.inj h, abilityInsert_eq_setKey]
      exact allValidB_setKey t k e.id ht (abilityKeyRaw_valid e k hk)

theorem parseAbilitiesList_valid : ∀ (es : List AbilityEntry) (t t' : Table),
    parseAbilitiesList sepsIds t es = .ok t' → allValidB t = true → allValidB t' = true := by
  intro es
  induction es with
  | nil =>
    intro t t' h ht
    unfold parseAbilitiesList at h
    rw [← Except.ok.inj h]
    exact ht
  | cons e es ih =>
    intro t t' h ht
    unfold parseAbilitiesList at h
    cases hstep : parseAbilitiesStep sepsIds t e with
    | error err =>
      rw [hstep] at h
      exact Except.noConfusion h
    | ok t2 =>
      rw [hstep] at h
      exact ih t2 t' h (parseAbilitiesStep_valid t e t2 hstep ht)

/-- Claim C7 (counterexample): a unit named `-foo` yields the symbol
`-foo`, whose first character is neither a letter nor the guard
underscore; and in the earlier two-separator variant a name `a@b` yields
the symbol `A@b`, which still contains `@` after the first character. -/
theorem symbol_first_char_not_letter :
    parseSimple sepsIds [⟨String.toList "-foo", 1⟩] = .ok [(String.toList "-foo", 1)] ∧
    ('-'.isAlpha || ('-' == '_')) = false ∧
    parseSimple sepsEnums [⟨String.toList "a@b", 1⟩] = .ok [(String.toList "A@b", 1)] ∧
    '@' ∈ (String.toList "A@b").tail :=
  ⟨by decide, by decide, by decide, by decide⟩

/-- Claim C7 (amended): every symbol in every table finalized by the
`generate_ids.py` pipeline is non-empty, does not start with a digit, and
contains no space, underscore or `@` after the first character (the first
character need not be a letter: only digits are guarded). -/
theorem finalized_keys_valid (snap : Snapshot) (v : Ver) (r : Tables)
    (h : GenIds.parse_data snap v = .ok r) :
    allValidB r.units = true ∧ allValidB r.abilities = true ∧
    allValidB r.upgrades = true ∧ allValidB r.buffs = true ∧
    allValidB r.effects = true := by
  unfold GenIds.parse_data at h
  cases hu : parseSimple sepsIds snap.units with
  | error e =>
    rw [hu] at h
    exact Except.noConfusion h
  | ok units =>
  rw [hu] at h
  cases hup : parseSimple sepsIds snap.upgrades with
  | error e =>
    rw [hup] at h
    exact Except.noConfusion h
  | ok upgrades =>
  rw [hup] at h
  cases hef : parseSimple sepsIds snap.effects with
  | error e =>
    rw [hef] at h
    exact Except.noConfusion h
  | ok effects =>
  rw [hef] at h
  cases hbu : parseSimple sepsIds snap.buffs with
  | error e =>
    rw [hbu] at h
    exact Except.noConfusion h
  | ok buffs =>
  rw [hbu] at h
  cases hab : parseAbilities sepsIds snap.abilities with
  | error e =>
    rw [hab] at h
    exact Except.noConfusion h
  | ok abilities =>
  rw [hab] at h
  have hvu : allValidB units = true := parseSimpleList_valid snap.units [] units hu rfl
  have hvup : allValidB upgrades = true := parseSimpleList_valid snap.upgrades [] upgrades hup rfl
  have hvef : allValidB effects = true := parseSimpleList_valid snap.effects [] effects hef rfl
  have hvbu : allValidB buffs = true := parseSimpleList_valid snap.buffs [] buffs hbu rfl
  have hvab : allValidB abilities = true :=
    parseAbilitiesList_valid snap.abilities [] abilities hab rfl
  cases v with
  | latest =>
    obtain rfl := Except.ok.inj h
    exact ⟨hvu, allValidB_setKey _ _ _ hvab (by decide), hvup, hvbu, hvef⟩
  | v4_10 =>
    obtain rfl := Except.ok.inj h
    exact ⟨hvu, hvab, hvup, hvbu, hvef⟩
  | linux505 =>
    obtain rfl := Except.ok.inj h
    exact ⟨allValidB_setKeys GenIds.unitsPatch505 units hvu (by decide),
           allValidB_setKeys GenIds.abilitiesPatch505 abilities hvab (by decide),
           allValidB_setKeys GenIds.upgradesPatch505 upgrades hvup (by decide),
           allValidB_setKeys GenIds.buffsPatch505 buffs hvbu (by decide),
           hvef⟩

/-- Claim C7 (witness): the validity theorem evaluated at the empty
snapshot with the latest-version patch applied. -/
theorem finalized_keys_valid_witness :
    GenIds.parse_data ⟨[], [], [], [], []⟩ .latest
      = .ok ⟨[], [(String.toList "TerranBuildRefinery", 320)], [], [], []⟩ ∧
    (allValidB [] = true ∧ allValidB [(String.toList "TerranBuildRefinery", 320)] = true ∧
     allValidB [] = true ∧ allValidB [] = true ∧ allValidB [] = true) :=
  ⟨by decide, finalized_keys_valid ⟨[], [], [], [], []⟩ .latest
    ⟨[], [(String.toList "TerranBuildRefinery", 320)], [], [], []⟩ (by decide)⟩

/-- Claim C8 (counterexample): in `generate_ids.py` the `"4.10"` patch
block is commented out, so parsing with the `4.10` tag leaves the
raw-data-derived value for `EnhancedShockwaves` (here 5) in place instead
of overriding it with 296. -/
theorem genids_no_410_patch :
    GenIds.parse_data ⟨[], [⟨String.toList "EnhancedShockwaves", 5⟩], [], [], []⟩ .v4_10
      = .ok ⟨[], [], [(String.toList "EnhancedShockwaves", 5)], [], []⟩ ∧
    lookup [(String.toList "EnhancedShockwaves", 5)] (String.toList "EnhancedShockwaves")
      ≠ some 296 :=
  ⟨by decide, by decide⟩

/-- Claim C8 (amended): in the `generate_enums.py` variant, parsing any
snapshot with the pinned-version tag `4.10` yields an upgrades table
mapping `EnhancedShockwaves` to exactly 296, overriding any raw-data
value. -/
theorem genenums_410_enhanced_shockwaves (snap : Snapshot) (r : Tables)
    (h : GenEnums.parse_data snap .v4_10 = .ok r) :
    lookup r.upgrades (String.toList "EnhancedShockwaves") = some 296 := by
  unfold GenEnums.parse_data at h
  split at h <;> try exact Except.noConfusion h
  split at h <;> try exact Except.noConfusion h
  split at h <;> try exact Except.noConfusion h
  split at h <;> try exact Except.noConfusion h
  split at h <;> try exact Except.noConfusion h
  obtain rfl := Except.ok.inj h
  exact lookup_setKey_self _ _ _

/-- Claim C8 (witness): the `4.10` patch theorem evaluated at the empty
snapshot, where the patched pair is the only upgrades entry. -/
theorem genenums_410_enhanced_shockwaves_witness :
    GenEnums.parse_data ⟨[], [], [], [], []⟩ .v4_10
      = .ok ⟨[], [(String.toList "GhostAcademyResearchEnhancedShockwaves", 822)],
             [(String.toList "EnhancedShockwaves", 296)], [], []⟩ ∧
    lookup [(String.toList "EnhancedShockwaves", 296)] (String.toList "EnhancedShockwaves")
      = some 296 :=
  ⟨by decide, genenums_410_enhanced_shockwaves ⟨[], [], [], [], []⟩
    ⟨[], [(String.toList "GhostAcademyResearchEnhancedShockwaves", 822)],
     [(String.toList "EnhancedShockwaves", 296)], [], []⟩ (by decide)⟩

theorem normalize_idem_gen (seps : List Char) (hu : '_' ∈ seps)
    (hs : ∀ x ∈ seps, x.toNat < 65 ∨ 90 < x.toNat) (s : Str)
    (h : strip seps s ≠ []) :
    normalize seps (normalize seps s) = normalize seps s := by
  cases hstrip : strip seps s with
  | nil => exact absurd hstrip h
  | cons c cs =>
    have hc : c ∉ seps :=
      (mem_strip (show c ∈ strip seps s by rw [hstrip]; exact List.mem_cons_self c cs)).2
    have hcs : ∀ x ∈ cs, x ∉ seps := fun x hx =>
      (mem_strip (show x ∈ strip seps s by
        rw [hstrip]; exact List.mem_cons_of_mem c hx)).2
    unfold normalize
    rw [hstrip]
    by_cases hd : isDigitChar c = true
    · have hguard : guardKey (c :: cs) = '_' :: c :: cs := by
        simp [guardKey, hd]
      have hup : upChar '_' = '_' := by decide
      rw [hguard]
      have hcap : capList ('_' :: c :: cs) = '_' :: c :: cs := by
        simp [capList, hup]
      rw [hcap]
      have hstrip2 : strip seps ('_' :: c :: cs) = c :: cs := by
        unfold strip
        rw [List.filter_cons]
        simp only [hu, decide_eq_true_eq]
        rw [if_neg (by simp [hu])]
        exact strip_eq_self (by
          intro x hx
          rcases List.mem_cons.mp hx with rfl | hx2
          · exact hc
          · exact hcs x hx2)
      rw [hstrip2, hguard, hcap]
    · have hguard : guardKey (c :: cs) = c :: cs := by
        simp [guardKey, hd]
      rw [hguard]
      have hcap : capList (c :: cs) = upChar c :: cs := by
        simp [capList]
      rw [hcap]
      have hupc : upChar c ∉ seps := upChar_notin_seps seps hs c hc
      have hstrip2 : strip seps (upChar c :: cs) = upChar c :: cs :=
        strip_eq_self (by
          intro x hx
          rcases List.mem_cons.mp hx with rfl | hx2
          · exact hupc
          · exact hcs x hx2)
      rw [hstrip2]
      have hd2 : isDigitChar (upChar c) = false :=
        isDigitChar_upChar c (Bool.not_eq_true _ ▸ hd)
      have hguard2 : guardKey (upChar c :: cs) = upChar c :: cs := by
        simp [guardKey, hd2]
      rw [hguard2]
      simp [capList, upChar_idem]

/-- Claim C9: on every raw label whose normalization produces a candidate
(non-empty after separator removal), the normalization (separator removal,
digit guard, initial capitalization) is idempotent — in both the
three-separator variant of `generate_ids.py` and the two-separator variant
of `generate_enums.py`. -/
theorem normalize_idempotent :
    (∀ s : Str, strip sepsIds s ≠ [] →
      normalize sepsIds (normalize sepsIds s) = normalize sepsIds s) ∧
    (∀ s : Str, strip sepsEnums s ≠ [] →
      normalize sepsEnums (normalize sepsEnums s) = normalize sepsEnums s) :=
  ⟨fun s h => normalize_idem_gen sepsIds (by decide) (by decide) s h,
   fun s h => normalize_idem_gen sepsEnums (by decide) (by decide) s h⟩

/-- Claim C9 (witness): idempotence evaluated at the concrete raw label
`"siege tank"`. -/
theorem normalize_idempotent_witness :
    strip sepsIds (String.toList "siege tank") ≠ [] ∧
    normalize sepsIds (normalize sepsIds (String.toList "siege tank"))
      = normalize sepsIds (String.toList "siege tank") :=
  ⟨by decide, normalize_idempotent.1 _ (by decide)⟩

/-- Claim C10 (witness): the index-error theorem evaluated at a concrete
entry whose friendly name is a single space. -/
theorem friendly_empty_overrides_index_error_witness :
    ((⟨String.toList "Btn", none, some [' '], some (String.toList "X"), 1, 4⟩ :
        AbilityEntry).buttonname ≠ [] ∧
     (⟨String.toList "Btn", none, some [' '], some (String.toList "X"), 1, 4⟩ :
        AbilityEntry).friendlyname = some [' '] ∧
     strip sepsIds [' '] = []) ∧
    abilityKeyRaw sepsIds
        (⟨String.toList "Btn", none, some [' '], some (String.toList "X"), 1, 4⟩ : AbilityEntry)
      = .error .indexError :=
  ⟨⟨by decide, rfl, by decide⟩,
   friendly_empty_overrides_index_error sepsIds _ [' '] (by decide) rfl (by decide)⟩

end StableIdGen
